import Mathlib

/-!
Shallow embedding of the supermarket-customer-behavior data pipeline
(`supermarket_customer_behavior/data/__init__.py` and
`supermarket_customer_behavior/model/transition_matrix.py`).

Tables are lists of records; `df.sort_values(by="timestamp")` is modelled as a
stable sort by timestamp (`List.insertionSort`), matching the sort contract the
spec fixes for tie-breaking (ties keep original row order).  Timestamps and
customer identifiers are modelled as natural numbers, locations as strings.
-/

namespace Supermarket

/-- A raw scan record: one row of the loaded dataframe, with columns
`timestamp`, `customer_no`, `location`. -/
structure Row where
  timestamp : Nat
  customer_no : Nat
  location : String
deriving Repr, DecidableEq

/-- A row after `add_entry_exit`: the raw columns plus `entry`, `exit` and
`customer_count_change`. -/
structure TaggedRow where
  timestamp : Nat
  customer_no : Nat
  location : String
  entry : Bool
  exit : Bool
  customer_count_change : Int
deriving Repr, DecidableEq

/-- Forget the tag columns of a `TaggedRow`. -/
def TaggedRow.toRow (r : TaggedRow) : Row :=
  ⟨r.timestamp, r.customer_no, r.location⟩

/-- Order on raw rows used by `df.sort_values(by="timestamp")`. -/
def rowLE (a b : Row) : Prop := a.timestamp ≤ b.timestamp

instance : DecidableRel rowLE := fun a b => inferInstanceAs (Decidable (a.timestamp ≤ b.timestamp))

instance : IsTotal Row rowLE := ⟨fun a b => Nat.le_total a.timestamp b.timestamp⟩

instance : IsTrans Row rowLE := ⟨fun _ _ _ => Nat.le_trans⟩

/-- Order on tagged rows used by `df.sort_values(by="timestamp")`. -/
def taggedLE (a b : TaggedRow) : Prop := a.timestamp ≤ b.timestamp

instance : DecidableRel taggedLE :=
  fun a b => inferInstanceAs (Decidable (a.timestamp ≤ b.timestamp))

instance : IsTotal TaggedRow taggedLE := ⟨fun a b => Nat.le_total a.timestamp b.timestamp⟩

instance : IsTrans TaggedRow taggedLE := ⟨fun _ _ _ => Nat.le_trans⟩

/-- Stable sort of raw rows by timestamp: `df.sort_values(by="timestamp")`. -/
def sortRows (df : List Row) : List Row :=
  df.insertionSort rowLE

/-- Stable sort of tagged rows by timestamp: `df.sort_values(by="timestamp")`. -/
def sortTagged (df : List TaggedRow) : List TaggedRow :=
  df.insertionSort taggedLE

/-- The tagged row built for a raw row whose `entry` flag is `ent`:
`exit` is `location == "checkout"`, and `customer_count_change` is the
result of the three assignments of `add_entry_exit` (0 everywhere, then 1
where `entry`, then -1 where `exit`, the last write winning). -/
def tagOf (a : Row) (ent : Bool) : TaggedRow :=
  ⟨a.timestamp, a.customer_no, a.location, ent, a.location == "checkout",
    if a.location == "checkout" then -1 else if ent then 1 else 0⟩

/-- Tagging pass over the timestamp-sorted rows.  `seen` is the set of
customer numbers already encountered; `entry` for a row is
`~df["customer_no"].duplicated()`, i.e. true iff its customer has not
appeared earlier in the sorted order. -/
def tagRows (seen : List Nat) : List Row → List TaggedRow
  | [] => []
  | r :: rest => tagOf r (!(seen.contains r.customer_no)) :: tagRows (r.customer_no :: seen) rest

/-- Model of `add_entry_exit`: sort by timestamp, flag first appearances as
`entry`, flag checkout rows as `exit`, and derive `customer_count_change`. -/
def add_entry_exit (df : List Row) : List TaggedRow :=
  tagRows [] (sortRows df)

/-- The `last_appearance` column of `filter_non_exiting_customers`
(`~df.iloc[::-1]["customer_no"].duplicated()`): a row is flagged iff no
later row has the same `customer_no`. -/
def markLast : List TaggedRow → List (TaggedRow × Bool)
  | [] => []
  | r :: rest =>
      (r, !(rest.any (fun s => s.customer_no == r.customer_no))) :: markLast rest

/-- The `invalid_customers` series: customer numbers of rows that are a last
appearance and are not an exit. -/
def invalid_customers (df : List TaggedRow) : List Nat :=
  (markLast df).filterMap (fun p => if p.2 && !p.1.exit then some p.1.customer_no else none)

/-- Model of `filter_non_exiting_customers`: sort by timestamp, compute the
invalid customers, and keep the rows of all other customers (the
`reset_index(drop=True)` is implicit in the list model). -/
def filter_non_exiting_customers (df : List TaggedRow) : List TaggedRow :=
  let sorted := sortTagged df
  sorted.filter (fun r => !((invalid_customers sorted).contains r.customer_no))

/-- Distinct keys of a `groupby`, in ascending order (pandas sorts group
keys). -/
def sortedKeys (l : List Nat) : List Nat :=
  l.dedup.insertionSort (· ≤ ·)

/-- The cumulative-sum column `df["customer_count_change"].cumsum()` paired
with the timestamps, starting from accumulator `acc`. -/
def cumTotals (acc : Int) : List TaggedRow → List (Nat × Int)
  | [] => []
  | r :: rest =>
      (r.timestamp, acc + r.customer_count_change) :: cumTotals (acc + r.customer_count_change) rest

/-- Model of `compute_customer_total`: cumulative sum of
`customer_count_change` in frame order, then `groupby("timestamp").last()`
(for each distinct timestamp in ascending order, the last cumulative value of
that timestamp group in frame order). -/
def compute_customer_total (df : List TaggedRow) : List (Nat × Int) :=
  let totals := cumTotals 0 df
  (sortedKeys (df.map (·.timestamp))).map
    (fun t => (t, ((totals.filter (fun p => p.1 == t)).map (·.2)).getLastD 0))

/-- Error type of the pipeline.  Modelled from the spec: the repository has
no exception module under `src/`; spec §7 names the failure of the duration
calculation for a customer lacking an entry or exit marker `MissingData`
(in the source it surfaces as the indexing error of `.iloc[0]` on an empty
selection). -/
inductive DataError where
  | MissingData
deriving Repr, DecidableEq

/-- Duration of one customer group: timestamp of the first `exit` row minus
timestamp of the first `entry` row, in frame order
(`customer[customer["exit"]].iloc[0].timestamp -
customer[customer["entry"]].iloc[0].timestamp`); fails when either
selection is empty. -/
def customerDuration (g : List TaggedRow) : Except DataError Int :=
  match (g.filter (fun r => r.exit)).head?, (g.filter (fun r => r.entry)).head? with
  | some ex, some en => .ok ((ex.timestamp : Int) - (en.timestamp : Int))
  | _, _ => .error .MissingData

/-- Per-customer application of `customerDuration` over the group keys, in
order; a failing group aborts the whole computation, as `groupby(...).apply`
does. -/
def mapDurations (df : List TaggedRow) : List Nat → Except DataError (List (Nat × Int))
  | [] => .ok []
  | c :: cs =>
      match customerDuration (df.filter (fun r => r.customer_no == c)), mapDurations df cs with
      | .ok d, .ok l => .ok ((c, d) :: l)
      | .error e, _ => .error e
      | .ok _, .error e => .error e

/-- Model of `compute_customer_time_in_store`: `groupby("customer_no")`
(keys in ascending order) and per-group duration. -/
def compute_customer_time_in_store (df : List TaggedRow) : Except DataError (List (Nat × Int)) :=
  mapDurations df (sortedKeys (df.map (·.customer_no)))

/-- Model of `customers_by_location`:
`df.groupby(["timestamp", "location"]).size().unstack(fill_value=0)` yields,
for each distinct timestamp (ascending), the number of rows at each location
that occurs somewhere in the table (0 when that location is absent at that
timestamp); the final `.loc[:, locations]` selects the requested columns in
the requested order, and a requested location absent from the whole table is
not a column of the unstacked frame, so its selection yields a missing
(all-NaN) column, modelled as `none` (pandas ≥ 1.0 raises `KeyError`
instead). -/
def customers_by_location (df : List TaggedRow) (locations : List String) :
    List (Nat × List (Option Nat)) :=
  let observed := (df.map (·.location)).dedup
  (sortedKeys (df.map (·.timestamp))).map
    (fun t => (t, locations.map (fun loc =>
      if observed.contains loc then
        some ((df.filter (fun r => r.timestamp == t && r.location == loc)).length)
      else none)))

/-- Lexicographic order on (customer_no, timestamp) used by
`df.sort_values(by=["customer_no", "timestamp"])`. -/
def custTimeLE (a b : TaggedRow) : Prop :=
  a.customer_no < b.customer_no ∨ (a.customer_no = b.customer_no ∧ a.timestamp ≤ b.timestamp)

instance : DecidableRel custTimeLE := fun a b =>
  inferInstanceAs (Decidable (a.customer_no < b.customer_no ∨
    (a.customer_no = b.customer_no ∧ a.timestamp ≤ b.timestamp)))

instance : IsTotal TaggedRow custTimeLE := by
  constructor
  intro a b
  rcases Nat.lt_trichotomy a.customer_no b.customer_no with h | h | h
  · exact Or.inl (Or.inl h)
  · rcases Nat.le_total a.timestamp b.timestamp with h2 | h2
    · exact Or.inl (Or.inr ⟨h, h2⟩)
    · exact Or.inr (Or.inr ⟨h.symm, h2⟩)
  · exact Or.inr (Or.inl h)

instance : IsTrans TaggedRow custTimeLE := by
  constructor
  intro a b c hab hbc
  rcases hab with h1 | ⟨e1, t1⟩
  · rcases hbc with h2 | ⟨e2, _⟩
    · exact Or.inl (Nat.lt_trans h1 h2)
    · exact Or.inl (e2 ▸ h1)
  · rcases hbc with h2 | ⟨e2, t2⟩
    · exact Or.inl (e1 ▸ h2)
    · exact Or.inr ⟨e1.trans e2, Nat.le_trans t1 t2⟩

/-- One pass of `add_entrance_location`.  Modelled from the spec:
`add_entrance_location` is imported by the transition-matrix module from the
data module but is absent from the source under `src/`; per spec §3 and §4.5
it injects, for each customer, a synthetic row at location `"entrance"`
immediately before that customer's first recorded row (same customer and
timestamp, not an exit), so that the first real transition is captured as
entrance → first location.  `seen` is the set of customers already handled. -/
def entranceGo (seen : List Nat) : List TaggedRow → List TaggedRow
  | [] => []
  | r :: rest =>
      if seen.contains r.customer_no then r :: entranceGo seen rest
      else
        ⟨r.timestamp, r.customer_no, "entrance", true, false, 0⟩ ::
          r :: entranceGo (r.customer_no :: seen) rest

/-- Modelled from the spec: see `entranceGo`. -/
def add_entrance_location (df : List TaggedRow) : List TaggedRow :=
  entranceGo [] df

/-- The `next_location` column:
`df["location"].shift(-1).where(~df["exit"], None)` — each row is paired
with the location of the following row, masked to `none` on exit rows
(and `none` on the final row, where `shift(-1)` yields NaN). -/
def nextLocations : List TaggedRow → List (String × Option String)
  | [] => []
  | r :: rest =>
      (r.location, if r.exit then none else rest.head?.map (·.location)) :: nextLocations rest

/-- The (location, next_location) pairs that `pd.crosstab` tabulates: pairs
whose `next_location` is NaN are dropped. -/
def observedPairs (ps : List (String × Option String)) : List (String × String) :=
  ps.filterMap (fun p => p.2.map (fun d => (p.1, d)))

/-- Model of `pd.crosstab(location, next_location, normalize="index")`: rows
are the source locations occurring in at least one observed pair, columns the
destinations, and each cell is the pair count divided by the row total. -/
def crosstabNormIndex (ps : List (String × Option String)) :
    List (String × List (String × ℚ)) :=
  let obs := observedPairs ps
  let rows := (obs.map (·.1)).dedup
  let cols := (obs.map (·.2)).dedup
  rows.map (fun src =>
    (src, cols.map (fun dst =>
      (dst, ((obs.filter (fun q => q.1 == src && q.2 == dst)).length : ℚ) /
        ((obs.filter (fun q => q.1 == src)).length : ℚ)))))

/-- Model of `get_transition_matrix`, abstracting the loaded data (the
result of `load_all`) as the argument: tag, filter, inject the synthetic
entrance rows, sort by (customer_no, timestamp), derive `next_location`, and
cross-tabulate with row normalization. -/
def get_transition_matrix (raw : List Row) : List (String × List (String × ℚ)) :=
  crosstabNormIndex (nextLocations
    ((add_entrance_location (filter_non_exiting_customers (add_entry_exit raw))).insertionSort
      custTimeLE))

/-- A small example table used to instantiate the theorems: two customers,
both reaching checkout. -/
def exampleRaw : List Row :=
  [⟨0, 1, "dairy"⟩, ⟨1, 1, "checkout"⟩, ⟨0, 2, "spices"⟩, ⟨2, 2, "checkout"⟩]

/-- A one-row example table: a single customer whose only scan is at
checkout. -/
def checkoutOnly : List Row :=
  [⟨0, 1, "checkout"⟩]

/-! ### Basic facts about the sorting passes and the tagging pass -/

theorem sortRows_perm (df : List Row) : List.Perm (sortRows df) df :=
  List.perm_insertionSort _ _

theorem sortRows_sorted (df : List Row) : List.Sorted rowLE (sortRows df) :=
  List.sorted_insertionSort _ _

theorem sortTagged_perm (df : List TaggedRow) : List.Perm (sortTagged df) df :=
  List.perm_insertionSort _ _

theorem sortTagged_sorted (df : List TaggedRow) : List.Sorted taggedLE (sortTagged df) :=
  List.sorted_insertionSort _ _

theorem tagRows_toRow (l : List Row) : ∀ seen, (tagRows seen l).map TaggedRow.toRow = l := by
  induction l with
  | nil => intro seen; rfl
  | cons r rest ih =>
      intro seen
      simp only [tagRows, List.map_cons, ih]
      rfl

/-- The rows of one customer flagged `entry` by the tagging pass: none when
the customer was already seen, and exactly the (tagged) first occurrence
otherwise. -/
theorem tagRows_filter_entry (l : List Row) : ∀ (seen : List Nat) (c : Nat),
    (tagRows seen l).filter (fun r => r.customer_no == c && r.entry)
      = if c ∈ seen then []
        else ((l.find? (fun a => a.customer_no == c)).map (fun a => tagOf a true)).toList := by
  induction l with
  | nil => intro seen c; simp [tagRows]
  | cons r rest ih =>
      intro seen c
      by_cases hrc : r.customer_no = c
      · subst hrc
        by_cases hseen : r.customer_no ∈ seen
        · rw [if_pos hseen]
          have hcont : seen.contains r.customer_no = true := by
            simpa using hseen
          simp only [tagRows, hcont]
          rw [List.filter_cons_of_neg (by simp [tagOf])]
          have := ih (r.customer_no :: seen) r.customer_no
          rw [if_pos (List.mem_cons_self _ _)] at this
          exact this
        · rw [if_neg hseen]
          have hcont : seen.contains r.customer_no = false := by
            simpa using hseen
          simp only [tagRows, hcont]
          rw [List.filter_cons_of_pos (by simp [tagOf])]
          have := ih (r.customer_no :: seen) r.customer_no
          rw [if_pos (List.mem_cons_self _ _)] at this
          rw [this, List.find?_cons_of_pos _ (by simp)]
          simp
      · by_cases hseen : c ∈ seen
        · rw [if_pos hseen]
          simp only [tagRows]
          rw [List.filter_cons_of_neg (by simp [tagOf, hrc])]
          have := ih (r.customer_no :: seen) c
          rw [if_pos (List.mem_cons_of_mem _ hseen)] at this
          exact this
        · rw [if_neg hseen]
          simp only [tagRows]
          rw [List.filter_cons_of_neg (by simp [tagOf, hrc])]
          have := ih (r.customer_no :: seen) c
          rw [if_neg (by simp [hrc, hseen, Ne.symm])] at this
          rw [this, List.find?_cons_of_neg _ (by simp [hrc])]

/-- C1: for every input table, after `add_entry_exit` each distinct
customer_no has exactly one row with `entry = true` (the filter below is a
singleton), that row has the minimum timestamp among that customer's rows,
and — ties broken by original row order — it is the first row of the input
holding that customer and that (minimal) timestamp. -/
theorem add_entry_exit_entry_unique_min (df : List Row) (c : Nat)
    (hc : ∃ r ∈ df, r.customer_no = c) :
    ∃ a : Row, a.customer_no = c ∧
      (add_entry_exit df).filter (fun r => r.customer_no == c && r.entry) = [tagOf a true] ∧
      (∀ r ∈ df, r.customer_no = c → a.timestamp ≤ r.timestamp) ∧
      df.find? (fun x => x.customer_no == c && x.timestamp == a.timestamp) = some a := by
  classical
  obtain ⟨r0, hr0, hr0c⟩ := hc
  have hperm : List.Perm (sortRows df) df := sortRows_perm df
  have hsort : List.Sorted rowLE (sortRows df) := sortRows_sorted df
  -- the first row of customer c in the sorted table
  have hfind : ((sortRows df).find? (fun a => a.customer_no == c)).isSome := by
    rw [List.find?_isSome]
    exact ⟨r0, hperm.mem_iff.mpr hr0, by simp [hr0c]⟩
  obtain ⟨a, ha⟩ := Option.isSome_iff_exists.mp hfind
  have hac : a.customer_no = c := by simpa using List.find?_some ha
  refine ⟨a, hac, ?_, ?_, ?_⟩
  · -- the entry rows of customer c are exactly the tagged first occurrence
    have := tagRows_filter_entry (sortRows df) [] c
    rw [if_neg (List.not_mem_nil c)] at this
    rw [add_entry_exit, this, ha]
    rfl
  · -- minimality of the timestamp
    intro r hr hrc
    obtain ⟨-, u, v, hsplit, hu⟩ := List.find?_eq_some.mp ha
    have hrs : r ∈ sortRows df := hperm.mem_iff.mpr hr
    rw [hsplit] at hrs hsort
    have hpair := (List.pairwise_append.mp hsort).2.1
    rcases List.mem_append.mp hrs with hru | hrav
    · exfalso
      have hxp := hu r hru
      rw [hrc] at hxp
      simp at hxp
    · rcases List.mem_cons.mp hrav with rfl | hrv
      · exact Nat.le_refl _
      · exact List.rel_of_pairwise_cons hpair hrv
  · -- tie-break: the entry row is the first min-timestamp row of c in df
    obtain ⟨-, u, v, hsplit, hu⟩ := List.find?_eq_some.mp ha
    set pmin : Row → Bool := fun x => x.customer_no == c && x.timestamp == a.timestamp with hpmin
    have hMall : ∀ x ∈ df.filter pmin, x.timestamp = a.timestamp := by
      intro x hx
      have := List.of_mem_filter hx
      simp only [hpmin, Bool.and_eq_true, beq_iff_eq] at this
      exact this.2
    have hMpw : (df.filter pmin).Pairwise rowLE := by
      refine List.pairwise_of_forall_mem_list ?_
      intro x hx y hy
      show x.timestamp ≤ y.timestamp
      rw [hMall x hx, hMall y hy]
    have hMsub : List.Sublist (df.filter pmin) (sortRows df) :=
      List.sublist_insertionSort hMpw (List.filter_sublist df)
    have hMfix : (df.filter pmin).filter pmin = df.filter pmin := by
      rw [List.filter_eq_self]
      intro x hx
      exact List.of_mem_filter hx
    have hMsub2 : List.Sublist (df.filter pmin) ((sortRows df).filter pmin) := by
      have := hMsub.filter pmin
      rwa [hMfix] at this
    have hlen : ((sortRows df).filter pmin).length = (df.filter pmin).length :=
      (hperm.filter pmin).length_eq
    have heqf : df.filter pmin = (sortRows df).filter pmin :=
      hMsub2.eq_of_length (hlen.symm)
    have hhead : ((sortRows df).filter pmin).head? = some a := by
      rw [hsplit, List.filter_append]
      have hufilt : u.filter pmin = [] := by
        rw [List.filter_eq_nil_iff]
        intro x hx
        have hxp := hu x hx
        simp only [Bool.not_eq_eq_eq_not, Bool.not_true] at hxp
        simp only [hpmin, Bool.and_eq_true, beq_iff_eq, not_and]
        intro hxc
        simp [hxc] at hxp
      rw [hufilt, List.filter_cons_of_pos (by simp [hpmin, hac])]
      rfl
    rw [← heqf, List.filter_head?] at hhead
    exact hhead

/-! ### The exit filter -/

theorem invalid_customers_cons (a : TaggedRow) (rest : List TaggedRow) :
    invalid_customers (a :: rest)
      = (if !(rest.any (fun s => s.customer_no == a.customer_no)) && !a.exit
          then [a.customer_no] else []) ++ invalid_customers rest := by
  simp only [invalid_customers, markLast, List.filterMap_cons]
  by_cases hb : (!(rest.any (fun s => s.customer_no == a.customer_no)) && !a.exit) = true
  · simp [hb]
  · simp [hb]

/-- A customer is in `invalid_customers` iff the last row holding it has
`exit = false`. -/
theorem mem_invalid_customers (l : List TaggedRow) (c : Nat) :
    c ∈ invalid_customers l ↔
      ∃ r, (l.filter (fun x => x.customer_no == c)).getLast? = some r ∧ r.exit = false := by
  induction l with
  | nil => simp [invalid_customers, markLast]
  | cons a rest ih =>
      rw [invalid_customers_cons, List.mem_append]
      by_cases hac : a.customer_no = c
      · rw [List.filter_cons_of_pos (by simp [hac])]
        by_cases hrest : rest.filter (fun x => x.customer_no == c) = []
        · have hany : rest.any (fun s => s.customer_no == a.customer_no) = false := by
            rw [List.any_eq_false]
            intro x hx hxc
            exact List.filter_eq_nil_iff.mp hrest x hx (by simpa [hac] using hxc)
          by_cases hex : a.exit = true
          · simp [hany, hex, ih, hrest, hac]
          · simp [hany, hex, ih, hrest, hac]
            intro x hx hxc
            exact (List.filter_eq_nil_iff.mp hrest x hx) (by simp [hxc])
        · obtain ⟨x, xs, hxs⟩ : ∃ x xs, rest.filter (fun y => y.customer_no == c) = x :: xs := by
            cases h : rest.filter (fun y => y.customer_no == c) with
            | nil => exact absurd h hrest
            | cons x xs => exact ⟨x, xs, rfl⟩
          have hxmem : x ∈ rest.filter (fun y => y.customer_no == c) := by
            rw [hxs]; exact List.mem_cons_self _ _
          have hany : rest.any (fun s => s.customer_no == a.customer_no) = true := by
            rw [List.any_eq_true]
            refine ⟨x, List.mem_of_mem_filter hxmem, ?_⟩
            have := List.of_mem_filter hxmem
            simp only [beq_iff_eq] at this ⊢
            rw [this, hac]
          rw [hxs, List.getLast?_cons_cons]
          simp [hany, ih, hxs]
      · have hac2 : ¬(c = a.customer_no) := fun h => hac h.symm
        rw [List.filter_cons_of_neg (by simp [hac])]
        by_cases hb : (!(rest.any (fun s => s.customer_no == a.customer_no)) && !a.exit) = true
        · simp [hb, ih, hac2]
        · simp [hb, ih]

/-- Every element of a pairwise-related list is equal or related to its last
element. -/
theorem rel_getLast?_of_pairwise {α : Type _} {R : α → α → Prop} :
    ∀ {l : List α}, l.Pairwise R → ∀ {z : α}, l.getLast? = some z → ∀ x ∈ l, x = z ∨ R x z := by
  intro l
  induction l with
  | nil => intro _ z hz; simp at hz
  | cons a rest ih =>
      intro hp z hz x hx
      cases rest with
      | nil =>
          simp only [List.getLast?_singleton, Option.some.injEq] at hz
          rcases List.mem_cons.mp hx with rfl | h
          · exact Or.inl hz
          · simp at h
      | cons b bs =>
          rw [List.getLast?_cons_cons] at hz
          rcases List.mem_cons.mp hx with rfl | hx2
          · exact Or.inr (List.rel_of_pairwise_cons hp (List.mem_of_getLast?_eq_some hz))
          · exact ih hp.of_cons hz x hx2

/-- C2: on a timestamp-sorted tagged table the exit filter returns exactly
the subtable (a list `filter`, hence order-preserving and contiguously
indexed) of the rows of customers whose last row is an exit; every row of a
customer whose last row has `exit = false` is removed, every other row is
kept.  The second part records that this positionally last row of a customer
is its temporally last one: it holds the customer and the maximum timestamp
among that customer's rows. -/
theorem filter_non_exiting_customers_spec (df : List TaggedRow)
    (hs : List.Sorted taggedLE df) :
    filter_non_exiting_customers df
        = df.filter (fun r =>
            ((df.filter (fun x => x.customer_no == r.customer_no)).getLastD r).exit) ∧
      ∀ r ∈ df,
        ((df.filter (fun x => x.customer_no == r.customer_no)).getLastD r).customer_no
            = r.customer_no ∧
        ∀ x ∈ df, x.customer_no = r.customer_no →
          x.timestamp
            ≤ ((df.filter (fun x => x.customer_no == r.customer_no)).getLastD r).timestamp := by
  have hse : sortTagged df = df := List.Sorted.insertionSort_eq hs
  constructor
  · rw [filter_non_exiting_customers]
    simp only [hse]
    refine List.filter_congr ?_
    intro r hr
    have hrf : r ∈ df.filter (fun x => x.customer_no == r.customer_no) :=
      List.mem_filter.mpr ⟨hr, by simp⟩
    have hne : df.filter (fun x => x.customer_no == r.customer_no) ≠ [] := by
      intro h; rw [h] at hrf; simp at hrf
    obtain ⟨lr, hlr⟩ :=
      Option.isSome_iff_exists.mp (List.getLast?_isSome.mpr hne)
    have hD : (df.filter (fun x => x.customer_no == r.customer_no)).getLastD r = lr := by
      rw [List.getLastD_eq_getLast?, hlr]; rfl
    rw [hD]
    by_cases hex : lr.exit = true
    · have hnotmem : r.customer_no ∉ invalid_customers df := by
        rw [mem_invalid_customers]
        rintro ⟨r2, hr2, hr2e⟩
        rw [hlr] at hr2
        cases hr2
        rw [hex] at hr2e
        cases hr2e
      simp [hnotmem, hex]
    · have hmem : r.customer_no ∈ invalid_customers df := by
        rw [mem_invalid_customers]
        exact ⟨lr, hlr, by simpa using hex⟩
      have hex2 : lr.exit = false := by simpa using hex
      simp [hmem, hex2]
  · intro r hr
    have hrf : r ∈ df.filter (fun x => x.customer_no == r.customer_no) :=
      List.mem_filter.mpr ⟨hr, by simp⟩
    have hne : df.filter (fun x => x.customer_no == r.customer_no) ≠ [] := by
      intro h; rw [h] at hrf; simp at hrf
    obtain ⟨lr, hlr⟩ :=
      Option.isSome_iff_exists.mp (List.getLast?_isSome.mpr hne)
    have hD : (df.filter (fun x => x.customer_no == r.customer_no)).getLastD r = lr := by
      rw [List.getLastD_eq_getLast?, hlr]; rfl
    have hpw : (df.filter (fun x => x.customer_no == r.customer_no)).Pairwise taggedLE :=
      List.Pairwise.sublist (List.filter_sublist df) hs
    have hlrc : lr.customer_no = r.customer_no := by
      have := List.of_mem_filter (List.mem_of_getLast?_eq_some hlr)
      simpa using this
    rw [hD]
    refine ⟨hlrc, ?_⟩
    intro x hx hxc
    have hxf : x ∈ df.filter (fun y => y.customer_no == r.customer_no) :=
      List.mem_filter.mpr ⟨hx, by simp [hxc]⟩
    rcases rel_getLast?_of_pairwise hpw hlr x hxf with rfl | hrel
    · exact Nat.le_refl _
    · exact hrel

/-! ### Shape of tagged rows, sortedness of the tagged table -/

/-- Every row produced by the tagging pass has `exit` equal to the checkout
test and `customer_count_change` determined by the flags, the exit
assignment overriding the entry one. -/
theorem tagRows_shape (l : List Row) : ∀ seen, ∀ y ∈ tagRows seen l,
    y.exit = (y.location == "checkout") ∧
    y.customer_count_change = (if y.exit then -1 else if y.entry then 1 else 0) := by
  induction l with
  | nil => intro seen y hy; simp [tagRows] at hy
  | cons r rest ih =>
      intro seen y hy
      rcases List.mem_cons.mp hy with rfl | hy2
      · exact ⟨rfl, rfl⟩
      · exact ih _ y hy2

/-- The tagging pass does not disturb the timestamp order. -/
theorem tagRows_sorted (l : List Row) : ∀ seen, List.Pairwise rowLE l →
    List.Pairwise taggedLE (tagRows seen l) := by
  induction l with
  | nil => intro seen _; exact List.Pairwise.nil
  | cons r rest ih =>
      intro seen hp
      refine List.Pairwise.cons ?_ (ih _ hp.of_cons)
      intro y hy
      have hmem : y.toRow ∈ rest := by
        have := List.mem_map_of_mem TaggedRow.toRow hy
        rwa [tagRows_toRow] at this
      exact List.rel_of_pairwise_cons hp hmem

theorem add_entry_exit_sorted (df : List Row) :
    List.Sorted taggedLE (add_entry_exit df) :=
  tagRows_sorted (sortRows df) [] (sortRows_sorted df)

theorem filter_non_exiting_customers_sorted (df : List TaggedRow) :
    List.Sorted taggedLE (filter_non_exiting_customers df) :=
  List.Pairwise.sublist (List.filter_sublist _) (sortTagged_sorted df)

/-- C7: the exit filter is idempotent: applying it twice yields the result of
applying it once. -/
theorem filter_non_exiting_customers_idem (df : List TaggedRow) :
    filter_non_exiting_customers (filter_non_exiting_customers df)
      = filter_non_exiting_customers df := by
  have hse : sortTagged (filter_non_exiting_customers df) = filter_non_exiting_customers df :=
    List.Sorted.insertionSort_eq (filter_non_exiting_customers_sorted df)
  conv_lhs => rw [filter_non_exiting_customers]
  simp only [hse]
  rw [List.filter_eq_self]
  intro r hr
  have hF : filter_non_exiting_customers df
      = (sortTagged df).filter
          (fun x => !((invalid_customers (sortTagged df)).contains x.customer_no)) := rfl
  have hrmem := hr
  rw [hF, List.mem_filter] at hrmem
  obtain ⟨hrs, hrk⟩ := hrmem
  have hnotinv : r.customer_no ∉ invalid_customers (sortTagged df) := by
    intro hmem
    simp [hmem] at hrk
  have hfilters :
      (filter_non_exiting_customers df).filter (fun x => x.customer_no == r.customer_no)
        = (sortTagged df).filter (fun x => x.customer_no == r.customer_no) := by
    rw [hF, List.filter_filter]
    refine List.filter_congr ?_
    intro x hx
    by_cases hxc : x.customer_no = r.customer_no
    · simp [hxc, hnotinv]
    · simp [hxc]
  have hout : r.customer_no ∉ invalid_customers (filter_non_exiting_customers df) := by
    rw [mem_invalid_customers, hfilters]
    rw [mem_invalid_customers] at hnotinv
    exact hnotinv
  simp [hout]

/-- C9: in the output of `add_entry_exit`, a row that is both an entry (its
customer's first appearance) and an exit (at location "checkout") has
`customer_count_change = -1`: the exit assignment overrides the entry one. -/
theorem add_entry_exit_exit_overrides_entry (df : List Row) (r : TaggedRow)
    (hr : r ∈ add_entry_exit df) (he : r.entry = true) (hx : r.exit = true) :
    r.customer_count_change = -1 := by
  have hshape := (tagRows_shape (sortRows df) [] r hr).2
  rw [hx] at hshape
  simpa using hshape

/-- C10: a customer whose only row in the raw table is at location
"checkout" is retained by `filter_non_exiting_customers` (its single tagged
row is an exit and is its last appearance), so single-row customers are not
unconditionally dropped. -/
theorem single_checkout_customer_retained (df : List Row) (c : Nat)
    (h : ∃ r ∈ df, df.filter (fun x => x.customer_no == c) = [r] ∧ r.location = "checkout") :
    ∃ tr ∈ filter_non_exiting_customers (add_entry_exit df),
      tr.customer_no = c ∧ tr.exit = true := by
  obtain ⟨r, -, hfilt, hloc⟩ := h
  -- the sorted raw table has the same single row of customer c
  have hsf : (sortRows df).filter (fun x => x.customer_no == c) = [r] := by
    have hperm := (sortRows_perm df).filter (fun x => x.customer_no == c)
    rw [hfilt] at hperm
    exact List.perm_singleton.mp hperm
  -- the tagged table has a single row of customer c, and it maps back to r
  have hmapf : ((add_entry_exit df).filter (fun x => x.customer_no == c)).map TaggedRow.toRow
      = [r] := by
    rw [add_entry_exit, ← hsf]
    have := tagRows_toRow (sortRows df) []
    conv_rhs => rw [← this]
    rw [List.filter_map]
    rfl
  obtain ⟨tr, htr⟩ : ∃ tr, (add_entry_exit df).filter (fun x => x.customer_no == c) = [tr] := by
    cases hL : (add_entry_exit df).filter (fun x => x.customer_no == c) with
    | nil => rw [hL] at hmapf; simp at hmapf
    | cons y ys =>
        cases ys with
        | nil => exact ⟨y, rfl⟩
        | cons z zs => rw [hL] at hmapf; simp at hmapf
  have htrrow : tr.toRow = r := by
    rw [htr] at hmapf
    simpa using hmapf
  have htrmem : tr ∈ add_entry_exit df := by
    have : tr ∈ [tr] := List.mem_cons_self _ _
    rw [← htr] at this
    exact List.mem_of_mem_filter this
  have htrc : tr.customer_no = c := by
    have : tr ∈ [tr] := List.mem_cons_self _ _
    rw [← htr] at this
    simpa using List.of_mem_filter this
  have htrexit : tr.exit = true := by
    have hsh := (tagRows_shape (sortRows df) [] tr htrmem).1
    have hl : tr.location = "checkout" := by
      rw [← hloc, ← htrrow]; rfl
    rw [hsh, hl]
    rfl
  have hse : sortTagged (add_entry_exit df) = add_entry_exit df :=
    List.Sorted.insertionSort_eq (add_entry_exit_sorted df)
  have hnotinv : c ∉ invalid_customers (add_entry_exit df) := by
    rw [mem_invalid_customers, htr]
    rintro ⟨r2, hr2, hr2e⟩
    simp only [List.getLast?_singleton, Option.some.injEq] at hr2
    rw [← hr2, htrexit] at hr2e
    cases hr2e
  refine ⟨tr, ?_, htrc, htrexit⟩
  rw [filter_non_exiting_customers]
  simp only [hse]
  rw [List.mem_filter]
  exact ⟨htrmem, by simp [htrc, hnotinv]⟩

/-! ### The running total -/

theorem getLastD_of_ne_nil {α : Type _} {l : List α} (h : l ≠ []) (a b : α) :
    l.getLastD a = l.getLastD b := by
  obtain ⟨z, hz⟩ := Option.isSome_iff_exists.mp (List.getLast?_isSome.mpr h)
  rw [List.getLastD_eq_getLast?, List.getLastD_eq_getLast?, hz]
  rfl

theorem cumTotals_fst (l : List TaggedRow) : ∀ acc : Int,
    (cumTotals acc l).map Prod.fst = l.map (·.timestamp) := by
  induction l with
  | nil => intro acc; rfl
  | cons r rest ih => intro acc; simp [cumTotals, ih]

/-- The last cumulative value of the group of timestamp `t` is the running
sum over all rows with timestamp at most `t` (on a timestamp-sorted table
containing `t`). -/
theorem cumTotals_getLast (l : List TaggedRow) : ∀ (acc : Int) (t : Nat),
    List.Pairwise taggedLE l → (∃ r ∈ l, r.timestamp = t) →
    (((cumTotals acc l).filter (fun p => p.1 == t)).map (·.2)).getLastD 0
      = acc + ((l.filter (fun r => decide (r.timestamp ≤ t))).map
          (·.customer_count_change)).sum := by
  induction l with
  | nil => intro acc t _ h; simp at h
  | cons r rest ih =>
      intro acc t hp hex
      by_cases hrt : r.timestamp = t
      · rw [cumTotals, List.filter_cons_of_pos (by simp [hrt]),
          List.filter_cons_of_pos (by simp [hrt])]
        by_cases hrest : ∃ x ∈ rest, x.timestamp = t
        · have hne : (cumTotals (acc + r.customer_count_change) rest).filter
              (fun p => p.1 == t) ≠ [] := by
            obtain ⟨x, hx, hxt⟩ := hrest
            intro hnil
            have hmem : t ∈ (cumTotals (acc + r.customer_count_change) rest).map Prod.fst := by
              rw [cumTotals_fst]
              exact List.mem_map.mpr ⟨x, hx, hxt⟩
            obtain ⟨p, hpmem, hpt⟩ := List.mem_map.mp hmem
            exact (List.filter_eq_nil_iff.mp hnil p hpmem) (by simp [hpt])
          have hmapne : ((cumTotals (acc + r.customer_count_change) rest).filter
              (fun p => p.1 == t)).map (·.2) ≠ [] := by
            simpa using hne
          rw [List.map_cons, List.getLastD_cons, getLastD_of_ne_nil hmapne _ 0,
            ih (acc + r.customer_count_change) t hp.of_cons hrest, List.map_cons,
            List.sum_cons]
          omega
        · have hfilt : (cumTotals (acc + r.customer_count_change) rest).filter
              (fun p => p.1 == t) = [] := by
            rw [List.filter_eq_nil_iff]
            intro p hpmem hpt
            have hmem : p.1 ∈ (cumTotals (acc + r.customer_count_change) rest).map Prod.fst :=
              List.mem_map_of_mem _ hpmem
            rw [cumTotals_fst] at hmem
            obtain ⟨x, hx, hxt⟩ := List.mem_map.mp hmem
            exact hrest ⟨x, hx, by simpa [hxt] using hpt⟩
          have hfilt2 : rest.filter (fun x => decide (x.timestamp ≤ t)) = [] := by
            rw [List.filter_eq_nil_iff]
            intro x hx hxle
            have h1 : t ≤ x.timestamp := hrt ▸ List.rel_of_pairwise_cons hp hx
            have h2 : x.timestamp ≠ t := fun h => hrest ⟨x, hx, h⟩
            simp only [decide_eq_true_eq] at hxle
            omega
          rw [hfilt, hfilt2]
          simp
      · have htrest : ∃ x ∈ rest, x.timestamp = t := by
          obtain ⟨x, hx, hxt⟩ := hex
          rcases List.mem_cons.mp hx with rfl | hx2
          · exact absurd hxt hrt
          · exact ⟨x, hx2, hxt⟩
        have hle : r.timestamp ≤ t := by
          obtain ⟨x, hx, hxt⟩ := htrest
          exact hxt ▸ List.rel_of_pairwise_cons hp hx
        rw [cumTotals, List.filter_cons_of_neg (by simp [hrt]),
          List.filter_cons_of_pos (by simp [hle]),
          ih (acc + r.customer_count_change) t hp.of_cons htrest, List.map_cons,
          List.sum_cons]
        omega

/-- C3: on a timestamp-sorted tagged table, `compute_customer_total` returns,
for each distinct timestamp `T` (and exactly those), a total equal to the
sum of `customer_count_change` over all rows with timestamp at most `T`:
the running total after processing every event at `T`. -/
theorem compute_customer_total_spec (df : List TaggedRow)
    (hs : List.Sorted taggedLE df) :
    (∀ p ∈ compute_customer_total df,
      p.2 = ((df.filter (fun r => decide (r.timestamp ≤ p.1))).map
        (·.customer_count_change)).sum) ∧
    ∀ t : Nat, (∃ r ∈ df, r.timestamp = t) ↔ ∃ p ∈ compute_customer_total df, p.1 = t := by
  have hkeys : ∀ t : Nat, t ∈ sortedKeys (df.map (·.timestamp)) ↔ ∃ r ∈ df, r.timestamp = t := by
    intro t
    rw [sortedKeys, List.mem_insertionSort, List.mem_dedup, List.mem_map]
  constructor
  · intro p hp
    simp only [compute_customer_total, List.mem_map] at hp
    obtain ⟨t, ht, hpt⟩ := hp
    have hex : ∃ r ∈ df, r.timestamp = t := (hkeys t).mp ht
    have := cumTotals_getLast df 0 t hs hex
    rw [← hpt]
    simpa using this
  · intro t
    rw [← hkeys t]
    constructor
    · intro ht
      exact ⟨(t, (((cumTotals 0 df).filter (fun p => p.1 == t)).map (·.2)).getLastD 0),
        by simpa only [compute_customer_total] using List.mem_map_of_mem _ ht, rfl⟩
    · rintro ⟨p, hp, hpt⟩
      simp only [compute_customer_total, List.mem_map] at hp
      obtain ⟨u, hu, hup⟩ := hp
      rw [← hpt, ← hup]
      exact hu

/-! ### The duration calculator -/

/-- Any failing group makes `mapDurations` fail with `MissingData`. -/
theorem mapDurations_error (df : List TaggedRow) : ∀ cs : List Nat,
    (∃ c ∈ cs, customerDuration (df.filter (fun r => r.customer_no == c)) =
      .error .MissingData) →
    mapDurations df cs = .error .MissingData := by
  intro cs
  induction cs with
  | nil => rintro ⟨c, hc, -⟩; simp at hc
  | cons c0 cs ih =>
      rintro ⟨c, hc, herr⟩
      rcases List.mem_cons.mp hc with rfl | hc2
      · rw [mapDurations, herr]
      · rw [mapDurations, ih ⟨c, hc2, herr⟩]
        cases h0 : customerDuration (df.filter (fun r => r.customer_no == c0)) with
        | ok d => rfl
        | error e => cases e; rfl

/-- Each pair of a successful `mapDurations` result comes from a successful
group. -/
theorem mapDurations_ok_mem (df : List TaggedRow) : ∀ (cs : List Nat) (l : List (Nat × Int)),
    mapDurations df cs = .ok l → ∀ p ∈ l, p.1 ∈ cs ∧
      customerDuration (df.filter (fun r => r.customer_no == p.1)) = .ok p.2 := by
  intro cs
  induction cs with
  | nil =>
      intro l hl p hp
      rw [mapDurations] at hl
      cases hl
      simp at hp
  | cons c0 cs ih =>
      intro l hl p hp
      rw [mapDurations] at hl
      cases h0 : customerDuration (df.filter (fun r => r.customer_no == c0)) with
      | error e => rw [h0] at hl; cases hl
      | ok d =>
          rw [h0] at hl
          cases h1 : mapDurations df cs with
          | error e => rw [h1] at hl; cases hl
          | ok l2 =>
              rw [h1] at hl
              cases hl
              rcases List.mem_cons.mp hp with rfl | hp2
              · exact ⟨List.mem_cons_self _ _, h0⟩
              · obtain ⟨h2, h3⟩ := ih l2 h1 p hp2
                exact ⟨List.mem_cons_of_mem _ h2, h3⟩

/-- Every key of a successful `mapDurations` run contributes a pair. -/
theorem mapDurations_ok_complete (df : List TaggedRow) : ∀ (cs : List Nat) (l : List (Nat × Int)),
    mapDurations df cs = .ok l → ∀ c ∈ cs, ∃ d, (c, d) ∈ l := by
  intro cs
  induction cs with
  | nil => intro l _ c hc; simp at hc
  | cons c0 cs ih =>
      intro l hl c hc
      rw [mapDurations] at hl
      cases h0 : customerDuration (df.filter (fun r => r.customer_no == c0)) with
      | error e => rw [h0] at hl; cases hl
      | ok d =>
          rw [h0] at hl
          cases h1 : mapDurations df cs with
          | error e => rw [h1] at hl; cases hl
          | ok l2 =>
              rw [h1] at hl
              cases hl
              rcases List.mem_cons.mp hc with rfl | hc2
              · exact ⟨d, List.mem_cons_self _ _⟩
              · obtain ⟨d2, hd2⟩ := ih l2 h1 c hc2
                exact ⟨d2, List.mem_cons_of_mem _ hd2⟩

/-- On a pairwise-sorted list the first match of a predicate has minimal
timestamp among all matches. -/
theorem find?_min_timestamp {g : List TaggedRow} (hp : List.Pairwise taggedLE g)
    {p : TaggedRow → Bool} {e : TaggedRow} (hf : g.find? p = some e) :
    ∀ x ∈ g, p x = true → e.timestamp ≤ x.timestamp := by
  intro x hx hpx
  obtain ⟨-, u, v, hsplit, hu⟩ := List.find?_eq_some.mp hf
  rw [hsplit] at hx hp
  rcases List.mem_append.mp hx with hxu | hxav
  · exfalso
    have := hu x hxu
    rw [hpx] at this
    cases this
  · rcases List.mem_cons.mp hxav with rfl | hxv
    · exact Nat.le_refl _
    · exact List.rel_of_pairwise_cons (List.pairwise_append.mp hp).2.1 hxv

/-- C4: on a timestamp-sorted tagged table, `compute_customer_time_in_store`
fails with `MissingData` as soon as some present customer has no
`entry = true` row or no `exit = true` row; on success it maps every present
customer to the timestamp of its earliest exit row minus the timestamp of
its earliest entry row. -/
theorem compute_customer_time_in_store_spec (df : List TaggedRow)
    (hs : List.Sorted taggedLE df) :
    ((∃ c, (∃ r ∈ df, r.customer_no = c) ∧
        ((∀ r ∈ df, r.customer_no = c → r.entry = false) ∨
         (∀ r ∈ df, r.customer_no = c → r.exit = false))) →
      compute_customer_time_in_store df = .error .MissingData) ∧
    ∀ l, compute_customer_time_in_store df = .ok l →
      (∀ p ∈ l, ∃ en ∈ df, ∃ ex ∈ df,
        en.customer_no = p.1 ∧ ex.customer_no = p.1 ∧ en.entry = true ∧ ex.exit = true ∧
        (∀ r ∈ df, r.customer_no = p.1 → r.entry = true → en.timestamp ≤ r.timestamp) ∧
        (∀ r ∈ df, r.customer_no = p.1 → r.exit = true → ex.timestamp ≤ r.timestamp) ∧
        p.2 = (ex.timestamp : Int) - (en.timestamp : Int)) ∧
      ∀ c, (∃ r ∈ df, r.customer_no = c) → ∃ d, (c, d) ∈ l := by
  have hkeys : ∀ c : Nat, c ∈ sortedKeys (df.map (·.customer_no)) ↔
      ∃ r ∈ df, r.customer_no = c := by
    intro c
    rw [sortedKeys, List.mem_insertionSort, List.mem_dedup, List.mem_map]
  constructor
  · rintro ⟨c, hpres, hmissing⟩
    rw [compute_customer_time_in_store]
    refine mapDurations_error df _ ⟨c, (hkeys c).mpr hpres, ?_⟩
    rw [customerDuration]
    rcases hmissing with hen | hex
    · have : (df.filter (fun r => r.customer_no == c)).filter (fun r => r.entry) = [] := by
        rw [List.filter_eq_nil_iff]
        intro x hx hxe
        have hxc := List.of_mem_filter hx
        simp only [beq_iff_eq] at hxc
        rw [hen x (List.mem_of_mem_filter hx) hxc] at hxe
        cases hxe
      rw [this]
      cases ((df.filter (fun r => r.customer_no == c)).filter (fun r => r.exit)).head? <;> rfl
    · have : (df.filter (fun r => r.customer_no == c)).filter (fun r => r.exit) = [] := by
        rw [List.filter_eq_nil_iff]
        intro x hx hxe
        have hxc := List.of_mem_filter hx
        simp only [beq_iff_eq] at hxc
        rw [hex x (List.mem_of_mem_filter hx) hxc] at hxe
        cases hxe
      rw [this]
      rfl
  · intro l hl
    rw [compute_customer_time_in_store] at hl
    constructor
    · intro p hp
      obtain ⟨-, hok⟩ := mapDurations_ok_mem df _ l hl p hp
      have hgpw : (df.filter (fun r => r.customer_no == p.1)).Pairwise taggedLE :=
        List.Pairwise.sublist (List.filter_sublist df) hs
      rw [customerDuration] at hok
      cases hex : ((df.filter (fun r => r.customer_no == p.1)).filter
          (fun r => r.exit)).head? with
      | none => rw [hex] at hok; cases hok
      | some ex =>
          cases hen : ((df.filter (fun r => r.customer_no == p.1)).filter
              (fun r => r.entry)).head? with
          | none => rw [hex, hen] at hok; cases hok
          | some en =>
              rw [hex, hen] at hok
              have hd : p.2 = (ex.timestamp : Int) - (en.timestamp : Int) :=
                (Except.ok.inj hok).symm
              rw [List.filter_head?] at hex hen
              have hexg := List.mem_of_find?_eq_some hex
              have heng := List.mem_of_find?_eq_some hen
              have hexc := List.of_mem_filter hexg
              have henc := List.of_mem_filter heng
              simp only [beq_iff_eq] at hexc henc
              refine ⟨en, List.mem_of_mem_filter heng, ex, List.mem_of_mem_filter hexg,
                henc, hexc, List.find?_some hen, List.find?_some hex, ?_, ?_, hd⟩
              · intro r hr hrc hre
                exact find?_min_timestamp hgpw hen r
                  (List.mem_filter.mpr ⟨hr, by simp [hrc]⟩) hre
              · intro r hr hrc hre
                exact find?_min_timestamp hgpw hex r
                  (List.mem_filter.mpr ⟨hr, by simp [hrc]⟩) hre
    · intro c hc
      exact mapDurations_ok_complete df _ l hl c ((hkeys c).mpr hc)

/-! ### The occupancy-delta sum -/

theorem sum_map_filter_split (l : List TaggedRow) (p : TaggedRow → Bool)
    (f : TaggedRow → Int) :
    ((l.filter p).map f).sum + ((l.filter (fun x => !p x)).map f).sum = (l.map f).sum := by
  induction l with
  | nil => rfl
  | cons r rest ih =>
      cases hr : p r with
      | true =>
          rw [List.filter_cons_of_pos hr, List.filter_cons_of_neg (by simp [hr])]
          simp only [List.map_cons, List.sum_cons]
          omega
      | false =>
          rw [List.filter_cons_of_neg (by simp [hr]), List.filter_cons_of_pos (by simp [hr])]
          simp only [List.map_cons, List.sum_cons]
          omega

/-- Splitting the sum of the deltas by customer. -/
theorem sum_by_customers : ∀ (cs : List Nat), cs.Nodup → ∀ l : List TaggedRow,
    (∀ r ∈ l, r.customer_no ∈ cs) →
    (l.map (·.customer_count_change)).sum
      = (cs.map (fun c => ((l.filter (fun r => r.customer_no == c)).map
          (·.customer_count_change)).sum)).sum := by
  intro cs
  induction cs with
  | nil =>
      intro _ l hl
      have : l = [] := by
        cases l with
        | nil => rfl
        | cons r rest => exact absurd (hl r (List.mem_cons_self _ _)) (List.not_mem_nil _)
      rw [this]
      rfl
  | cons c0 cs ih =>
      intro hnd l hl
      have hnd2 := List.nodup_cons.mp hnd
      have hsplit := sum_map_filter_split l (fun r => r.customer_no == c0)
        (·.customer_count_change)
      have hcover : ∀ r ∈ l.filter (fun x => !(x.customer_no == c0)), r.customer_no ∈ cs := by
        intro r hr
        have h1 := hl r (List.mem_of_mem_filter hr)
        have h2 := List.of_mem_filter hr
        simp only [Bool.not_eq_eq_eq_not, Bool.not_true, beq_eq_false_iff_ne] at h2
        rcases List.mem_cons.mp h1 with h | h
        · exact absurd h h2
        · exact h
      have hrest := ih hnd2.2 (l.filter (fun x => !(x.customer_no == c0))) hcover
      have hsame : ∀ c ∈ cs,
          ((l.filter (fun x => !(x.customer_no == c0))).filter
            (fun r => r.customer_no == c)).map (·.customer_count_change)
          = (l.filter (fun r => r.customer_no == c)).map (·.customer_count_change) := by
        intro c hc
        have hne : c ≠ c0 := fun h => hnd2.1 (h ▸ hc)
        rw [List.filter_filter]
        congr 1
        refine List.filter_congr ?_
        intro x _
        by_cases hxc : x.customer_no = c
        · simp [hxc, hne]
        · simp [hxc]
      rw [List.map_cons, List.sum_cons, ← hsplit, hrest]
      congr 1
      refine congrArg List.sum ?_
      refine List.map_congr_left ?_
      intro c hc
      rw [hsame c hc]

/-- The delta sum of a list of rows whose deltas follow the tagging shape. -/
theorem sum_delta_eq_counts (m : List TaggedRow)
    (hshape : ∀ r ∈ m, r.customer_count_change
      = (if r.exit then -1 else if r.entry then 1 else 0)) :
    (m.map (·.customer_count_change)).sum
      = (m.countP (fun r => r.entry && !r.exit) : Int) - (m.countP (fun r => r.exit) : Int) := by
  induction m with
  | nil => rfl
  | cons r rest ih =>
      have hr := hshape r (List.mem_cons_self _ _)
      have hrest := ih (fun x hx => hshape x (List.mem_cons_of_mem _ hx))
      rw [List.map_cons, List.sum_cons, hrest, List.countP_cons, List.countP_cons, hr]
      cases hex : r.exit <;> cases hen : r.entry <;> simp [hex, hen] <;> omega

/-- The entry rows of one (present) customer form a singleton. -/
theorem add_entry_exit_entry_filter (df : List Row) (c : Nat)
    (hc : ∃ r ∈ df, r.customer_no = c) :
    ∃ a : Row, a.customer_no = c ∧
      (add_entry_exit df).filter (fun r => r.customer_no == c && r.entry) = [tagOf a true] := by
  obtain ⟨r0, hr0, hr0c⟩ := hc
  have hperm : List.Perm (sortRows df) df := sortRows_perm df
  have hfind : ((sortRows df).find? (fun a => a.customer_no == c)).isSome := by
    rw [List.find?_isSome]
    exact ⟨r0, hperm.mem_iff.mpr hr0, by simp [hr0c]⟩
  obtain ⟨a, ha⟩ := Option.isSome_iff_exists.mp hfind
  refine ⟨a, by simpa using List.find?_some ha, ?_⟩
  have h := tagRows_filter_entry (sortRows df) [] c
  rw [if_neg (List.not_mem_nil c)] at h
  rw [add_entry_exit, h, ha]
  rfl

/-- A customer of the tagged table is a customer of the raw table. -/
theorem mem_customers_add_entry_exit (df : List Row) (c : Nat)
    (hc : c ∈ (add_entry_exit df).map (·.customer_no)) : ∃ r ∈ df, r.customer_no = c := by
  obtain ⟨y, hy, hyc⟩ := List.mem_map.mp hc
  have : y.toRow ∈ sortRows df := by
    have := List.mem_map_of_mem TaggedRow.toRow hy
    rwa [add_entry_exit, tagRows_toRow] at this
  exact ⟨y.toRow, (sortRows_perm df).mem_iff.mp this, hyc⟩

/-- C8 (amended): the delta sum of a tagged table vanishes for tables in
which every present customer has exactly one exit row and no entry row that
is also an exit row (customers who both entered and exited, reaching
checkout exactly once, and not at their first appearance). -/
theorem add_entry_exit_delta_sum_zero (df : List Row)
    (hone : ∀ c ∈ (add_entry_exit df).map (·.customer_no),
      ((add_entry_exit df).filter (fun r => r.customer_no == c)).countP (fun r => r.exit) = 1)
    (hent : ∀ r ∈ add_entry_exit df, r.entry = true → r.exit = false) :
    ((add_entry_exit df).map (·.customer_count_change)).sum = 0 := by
  set out := add_entry_exit df with hout
  have hcover : ∀ r ∈ out, r.customer_no ∈ (out.map (·.customer_no)).dedup := by
    intro r hr
    rw [List.mem_dedup]
    exact List.mem_map_of_mem _ hr
  rw [sum_by_customers ((out.map (·.customer_no)).dedup) (List.nodup_dedup _) out hcover]
  refine List.sum_eq_zero ?_
  intro z hz
  obtain ⟨c, hcmem, hcz⟩ := List.mem_map.mp hz
  have hcmem2 : c ∈ out.map (·.customer_no) := List.mem_dedup.mp hcmem
  have hshape : ∀ r ∈ out.filter (fun r => r.customer_no == c), r.customer_count_change
      = (if r.exit then -1 else if r.entry then 1 else 0) := by
    intro r hr
    exact (tagRows_shape (sortRows df) [] r (List.mem_of_mem_filter hr)).2
  rw [← hcz, sum_delta_eq_counts _ hshape, hone c hcmem2]
  -- it remains to compute the count of non-exit entry rows of customer c
  obtain ⟨a, hac, hfilt⟩ :=
    add_entry_exit_entry_filter df c (mem_customers_add_entry_exit df c hcmem2)
  have hcomm : out.filter (fun r => r.entry && r.customer_no == c) = [tagOf a true] := by
    rw [← hfilt]
    refine List.filter_congr ?_
    intro x _
    exact Bool.and_comm _ _
  have hstep : (out.filter (fun r => r.customer_no == c)).filter
      (fun r => r.entry && !r.exit) = [tagOf a true] := by
    rw [List.filter_filter]
    have hae : (tagOf a true).exit = false := by
      have hmem : tagOf a true ∈ out := by
        have : tagOf a true ∈ [tagOf a true] := List.mem_cons_self _ _
        rw [← hfilt] at this
        exact List.mem_of_mem_filter this
      exact hent _ hmem rfl
    rw [← hcomm]
    refine List.filter_congr ?_
    intro x hx
    by_cases h2 : x.entry = true
    · have hxe : x.exit = false := hent x hx h2
      simp [h2, hxe]
    · have h2f : x.entry = false := by simpa using h2
      simp [h2f]
  have hcount : (out.filter (fun r => r.customer_no == c)).countP
      (fun r => r.entry && !r.exit) = 1 := by
    rw [List.countP_eq_length_filter, hstep]
    rfl
  rw [hcount]
  omega

/-- C8 counterexample: the tagged table of a single customer whose only scan
is at checkout contains only customers who both entered (an entry row
exists) and exited (an exit row exists), yet its deltas sum to -1, not 0. -/
theorem add_entry_exit_delta_sum_counterexample :
    (∀ c ∈ (add_entry_exit checkoutOnly).map (·.customer_no),
      (∃ r ∈ add_entry_exit checkoutOnly, r.customer_no = c ∧ r.entry = true) ∧
      (∃ r ∈ add_entry_exit checkoutOnly, r.customer_no = c ∧ r.exit = true)) ∧
    ((add_entry_exit checkoutOnly).map (·.customer_count_change)).sum = -1 := by
  decide

/-! ### Customers by location -/

/-- C6 (amended): `customers_by_location` returns, at every timestamp row,
one column per requested location in the requested order; a requested
location occurring in the table yields its per-timestamp row count (0 where
absent at that timestamp), while a requested location with zero occurrences
in the whole table yields a column of missing values (`none`: the NaN column
that `.loc` label-selection produces on the unstacked frame; pandas ≥ 1.0
raises `KeyError`), not an all-zero column. -/
theorem customers_by_location_columns (df : List TaggedRow) (locations : List String) :
    ∀ p ∈ customers_by_location df locations,
      p.2 = locations.map (fun loc =>
        if loc ∈ df.map (·.location)
        then some ((df.filter (fun r => r.timestamp == p.1 && r.location == loc)).length)
        else none) := by
  intro p hp
  simp only [customers_by_location, List.mem_map] at hp
  obtain ⟨t, ht, hpt⟩ := hp
  rw [← hpt]
  refine List.map_congr_left ?_
  intro loc hloc
  by_cases hmem : loc ∈ df.map (·.location)
  · have hcont : ((df.map (·.location)).dedup).contains loc = true := by
      simp [List.mem_dedup, hmem]
    rw [if_pos hcont, if_pos hmem]
  · have hcont : ((df.map (·.location)).dedup).contains loc = false := by
      simp [List.mem_dedup, hmem]
    have hnc : ¬(((df.map (·.location)).dedup).contains loc = true) := by
      rw [hcont]; exact Bool.false_ne_true
    rw [if_neg hnc, if_neg hmem]

/-- C6 counterexample: on the one-row checkout table, requesting the absent
location "fruit" yields the missing column `[none]`, not the all-zero column
`[some 0]` the claim asserts. -/
theorem customers_by_location_missing_counterexample :
    customers_by_location (add_entry_exit checkoutOnly) ["fruit"] = [(0, [none])] ∧
    customers_by_location (add_entry_exit checkoutOnly) ["fruit"] ≠ [(0, [some (0 : Nat)])] := by
  decide

/-! ### The transition matrix -/

theorem sum_map_div {β : Type _} (xs : List β) (f : β → ℚ) (t : ℚ) :
    (xs.map (fun x => f x / t)).sum = (xs.map f).sum / t := by
  induction xs with
  | nil => simp
  | cons x l ih => simp [ih, add_div]

theorem length_filter_split {β : Type _} (l : List β) (p : β → Bool) :
    (l.filter p).length + (l.filter (fun x => !p x)).length = l.length := by
  induction l with
  | nil => rfl
  | cons x l ih =>
      cases hx : p x with
      | true =>
          rw [List.filter_cons_of_pos hx, List.filter_cons_of_neg (by simp [hx])]
          simp only [List.length_cons]
          omega
      | false =>
          rw [List.filter_cons_of_neg (by simp [hx]), List.filter_cons_of_pos (by simp [hx])]
          simp only [List.length_cons]
          omega

/-- Counting a list by the distinct values of its second component. -/
theorem sum_counts_by_snd : ∀ (cols : List String), cols.Nodup →
    ∀ m : List (String × String), (∀ q ∈ m, q.2 ∈ cols) →
    (cols.map (fun c => (m.filter (fun q => q.2 == c)).length)).sum = m.length := by
  intro cols
  induction cols with
  | nil =>
      intro _ m hm
      cases m with
      | nil => rfl
      | cons q l => exact absurd (hm q (List.mem_cons_self _ _)) (List.not_mem_nil _)
  | cons c0 cs ih =>
      intro hnd m hm
      have hnd2 := List.nodup_cons.mp hnd
      have hcover : ∀ q ∈ m.filter (fun x => !(x.2 == c0)), q.2 ∈ cs := by
        intro q hq
        have h1 := hm q (List.mem_of_mem_filter hq)
        have h2 := List.of_mem_filter hq
        simp only [Bool.not_eq_eq_eq_not, Bool.not_true, beq_eq_false_iff_ne] at h2
        rcases List.mem_cons.mp h1 with h | h
        · exact absurd h h2
        · exact h
      have hsame : ∀ c ∈ cs,
          ((m.filter (fun x => !(x.2 == c0))).filter (fun q => q.2 == c)).length
            = (m.filter (fun q => q.2 == c)).length := by
        intro c hc
        have hne : c ≠ c0 := fun h => hnd2.1 (h ▸ hc)
        rw [List.filter_filter]
        congr 1
        refine List.filter_congr ?_
        intro x _
        by_cases hxc : x.2 = c
        · simp [hxc, hne]
        · simp [hxc]
      have hrest := ih hnd2.2 (m.filter (fun x => !(x.2 == c0))) hcover
      rw [List.map_cons, List.sum_cons]
      have hmap : (cs.map (fun c => (m.filter (fun q => q.2 == c)).length)).sum
          = (m.filter (fun x => !(x.2 == c0))).length := by
        rw [← hrest]
        refine congrArg List.sum ?_
        refine List.map_congr_left ?_
        intro c hc
        rw [hsame c hc]
      rw [hmap, length_filter_split]

/-- Every row emitted by the row-normalized crosstab sums to 1: a row is
emitted only for sources with at least one observed pair, so its total is
positive. -/
theorem crosstabNormIndex_row_sum (ps : List (String × Option String)) :
    ∀ p ∈ crosstabNormIndex ps, (p.2.map Prod.snd).sum = 1 := by
  intro p hp
  simp only [crosstabNormIndex, List.mem_map] at hp
  obtain ⟨src, hsrc, hpt⟩ := hp
  rw [← hpt]
  simp only [List.map_map]
  set obs := observedPairs ps with hobs
  set m := obs.filter (fun q => q.1 == src) with hm
  have hswap : ∀ dst : String,
      obs.filter (fun q => q.1 == src && q.2 == dst) = m.filter (fun q => q.2 == dst) := by
    intro dst
    rw [hm, List.filter_filter]
    refine List.filter_congr ?_
    intro x _
    exact (Bool.and_comm _ _).symm
  have hmne : m ≠ [] := by
    obtain ⟨q, hq, hqsrc⟩ := List.mem_map.mp (List.mem_dedup.mp hsrc)
    intro hnil
    have : q ∈ m := List.mem_filter.mpr ⟨hq, by simp [hqsrc]⟩
    rw [hnil] at this
    exact List.not_mem_nil _ this
  have hlen : m.length ≠ 0 := fun h => hmne (List.length_eq_zero.mp h)
  have hcolsnd : ∀ q ∈ m, q.2 ∈ (obs.map (·.2)).dedup := by
    intro q hq
    rw [List.mem_dedup]
    exact List.mem_map_of_mem _ (List.mem_of_mem_filter hq)
  have hcounts := sum_counts_by_snd ((obs.map (·.2)).dedup) (List.nodup_dedup _) m hcolsnd
  have hcast : ((obs.map (·.2)).dedup.map
      (fun dst => ((m.filter (fun q => q.2 == dst)).length : ℚ))).sum = (m.length : ℚ) := by
    rw [← hcounts, Nat.cast_list_sum, List.map_map]
    rfl
  calc ((obs.map (·.2)).dedup.map
        (fun dst => ((obs.filter (fun q => q.1 == src && q.2 == dst)).length : ℚ)
          / ((obs.filter (fun q => q.1 == src)).length : ℚ))).sum
      = ((obs.map (·.2)).dedup.map
          (fun dst => ((m.filter (fun q => q.2 == dst)).length : ℚ) / (m.length : ℚ))).sum := by
        refine congrArg List.sum ?_
        refine List.map_congr_left ?_
        intro dst _
        rw [hswap dst, hm]
    _ = ((obs.map (·.2)).dedup.map
          (fun dst => ((m.filter (fun q => q.2 == dst)).length : ℚ))).sum / (m.length : ℚ) :=
        sum_map_div _ _ _
    _ = (m.length : ℚ) / (m.length : ℚ) := by rw [hcast]
    _ = 1 := div_self (by exact_mod_cast hlen)

/-- C5: every source location present as a row of the transition matrix has
row sum exactly 1 (the crosstab drops the pairs with a missing
`next_location`, so a source with no observed outbound transition is never
emitted as a row and the 0-sum branch of the claim is vacuous). -/
theorem get_transition_matrix_row_sum (raw : List Row) :
    ∀ p ∈ get_transition_matrix raw, (p.2.map Prod.snd).sum = 1 := by
  intro p hp
  exact crosstabNormIndex_row_sum _ p hp

/-! ### Concrete instantiations of the theorems with hypotheses -/

/-- Witness for C1: the entry-row theorem applied to the example table and
customer 1. -/
theorem add_entry_exit_entry_unique_min_witness :
    (∃ r ∈ exampleRaw, r.customer_no = 1) ∧
    (∃ a : Row, a.customer_no = 1 ∧
      (add_entry_exit exampleRaw).filter (fun r => r.customer_no == 1 && r.entry)
        = [tagOf a true] ∧
      (∀ r ∈ exampleRaw, r.customer_no = 1 → a.timestamp ≤ r.timestamp) ∧
      exampleRaw.find? (fun x => x.customer_no == 1 && x.timestamp == a.timestamp) = some a) :=
  ⟨by decide, add_entry_exit_entry_unique_min exampleRaw 1 (by decide)⟩

/-- Witness for C2: the exit-filter theorem applied to the tagged example
table. -/
theorem filter_non_exiting_customers_spec_witness :
    List.Sorted taggedLE (add_entry_exit exampleRaw) ∧
    (filter_non_exiting_customers (add_entry_exit exampleRaw)
        = (add_entry_exit exampleRaw).filter (fun r =>
            (((add_entry_exit exampleRaw).filter
              (fun x => x.customer_no == r.customer_no)).getLastD r).exit) ∧
      ∀ r ∈ add_entry_exit exampleRaw,
        (((add_entry_exit exampleRaw).filter
            (fun x => x.customer_no == r.customer_no)).getLastD r).customer_no
            = r.customer_no ∧
        ∀ x ∈ add_entry_exit exampleRaw, x.customer_no = r.customer_no →
          x.timestamp ≤ (((add_entry_exit exampleRaw).filter
            (fun x => x.customer_no == r.customer_no)).getLastD r).timestamp) :=
  ⟨by decide, filter_non_exiting_customers_spec (add_entry_exit exampleRaw) (by decide)⟩

/-- Witness for C3: the running-total theorem applied to the tagged example
table. -/
theorem compute_customer_total_spec_witness :
    List.Sorted taggedLE (add_entry_exit exampleRaw) ∧
    ((∀ p ∈ compute_customer_total (add_entry_exit exampleRaw),
      p.2 = (((add_entry_exit exampleRaw).filter
          (fun r => decide (r.timestamp ≤ p.1))).map (·.customer_count_change)).sum) ∧
    ∀ t : Nat, (∃ r ∈ add_entry_exit exampleRaw, r.timestamp = t) ↔
      ∃ p ∈ compute_customer_total (add_entry_exit exampleRaw), p.1 = t) :=
  ⟨by decide, compute_customer_total_spec (add_entry_exit exampleRaw) (by decide)⟩

/-- Witness for C4: the duration theorem applied to the tagged example
table. -/
theorem compute_customer_time_in_store_spec_witness :
    List.Sorted taggedLE (add_entry_exit exampleRaw) ∧
    (((∃ c, (∃ r ∈ add_entry_exit exampleRaw, r.customer_no = c) ∧
        ((∀ r ∈ add_entry_exit exampleRaw, r.customer_no = c → r.entry = false) ∨
         (∀ r ∈ add_entry_exit exampleRaw, r.customer_no = c → r.exit = false))) →
      compute_customer_time_in_store (add_entry_exit exampleRaw) = .error .MissingData) ∧
    ∀ l, compute_customer_time_in_store (add_entry_exit exampleRaw) = .ok l →
      (∀ p ∈ l, ∃ en ∈ add_entry_exit exampleRaw, ∃ ex ∈ add_entry_exit exampleRaw,
        en.customer_no = p.1 ∧ ex.customer_no = p.1 ∧ en.entry = true ∧ ex.exit = true ∧
        (∀ r ∈ add_entry_exit exampleRaw, r.customer_no = p.1 → r.entry = true →
          en.timestamp ≤ r.timestamp) ∧
        (∀ r ∈ add_entry_exit exampleRaw, r.customer_no = p.1 → r.exit = true →
          ex.timestamp ≤ r.timestamp) ∧
        p.2 = (ex.timestamp : Int) - (en.timestamp : Int)) ∧
      ∀ c, (∃ r ∈ add_entry_exit exampleRaw, r.customer_no = c) → ∃ d, (c, d) ∈ l) :=
  ⟨by decide, compute_customer_time_in_store_spec (add_entry_exit exampleRaw) (by decide)⟩

/-- Witness for C5: the row-sum theorem applied to the first row of the
example transition matrix (the membership hypothesis is discharged by
indexing: the row list has positive length, which the kernel evaluates
without forcing the rational cells). -/
theorem get_transition_matrix_row_sum_witness :
    ((((get_transition_matrix exampleRaw).get ⟨0, by decide⟩).2).map Prod.snd).sum = 1 :=
  get_transition_matrix_row_sum exampleRaw _ (List.get_mem _ _ _)

/-- Witness for C6: the column theorem applied to the one-row checkout table
and the absent location "fruit". -/
theorem customers_by_location_columns_witness :
    ((0 : Nat), [(none : Option Nat)])
        ∈ customers_by_location (add_entry_exit checkoutOnly) ["fruit"] ∧
    [(none : Option Nat)] = (["fruit"] : List String).map (fun loc =>
      if loc ∈ (add_entry_exit checkoutOnly).map (·.location)
      then some (((add_entry_exit checkoutOnly).filter
        (fun r => r.timestamp == 0 && r.location == loc)).length)
      else none) :=
  ⟨by decide, customers_by_location_columns (add_entry_exit checkoutOnly) ["fruit"]
    ((0 : Nat), [(none : Option Nat)]) (by decide)⟩

/-- Witness for C8 (amended): the delta-sum theorem applied to the example
table, whose customers all reach checkout exactly once and never at their
first appearance. -/
theorem add_entry_exit_delta_sum_zero_witness :
    (∀ c ∈ (add_entry_exit exampleRaw).map (·.customer_no),
      ((add_entry_exit exampleRaw).filter (fun r => r.customer_no == c)).countP
        (fun r => r.exit) = 1) ∧
    (∀ r ∈ add_entry_exit exampleRaw, r.entry = true → r.exit = false) ∧
    ((add_entry_exit exampleRaw).map (·.customer_count_change)).sum = 0 :=
  ⟨by decide, by decide, add_entry_exit_delta_sum_zero exampleRaw (by decide) (by decide)⟩

/-- Witness for C9: the override theorem applied to the tagged row of the
one-row checkout table, which is both an entry and an exit. -/
theorem add_entry_exit_exit_overrides_entry_witness :
    (TaggedRow.mk 0 1 "checkout" true true (-1)) ∈ add_entry_exit checkoutOnly ∧
    (TaggedRow.mk 0 1 "checkout" true true (-1)).entry = true ∧
    (TaggedRow.mk 0 1 "checkout" true true (-1)).exit = true ∧
    (TaggedRow.mk 0 1 "checkout" true true (-1)).customer_count_change = -1 :=
  ⟨by decide, rfl, rfl,
    add_entry_exit_exit_overrides_entry checkoutOnly
      (TaggedRow.mk 0 1 "checkout" true true (-1)) (by decide) rfl rfl⟩

/-- Witness for C10: the retention theorem applied to the one-row checkout
table. -/
theorem single_checkout_customer_retained_witness :
    (∃ r ∈ checkoutOnly, checkoutOnly.filter (fun x => x.customer_no == 1) = [r] ∧
      r.location = "checkout") ∧
    (∃ tr ∈ filter_non_exiting_customers (add_entry_exit checkoutOnly),
      tr.customer_no = 1 ∧ tr.exit = true) :=
  ⟨by decide, single_checkout_customer_retained checkoutOnly 1 (by decide)⟩

end Supermarket
